import Mathlib

/-!
Verification of `skills/skill-update/scripts/update_skills.py`.

The Python script manages a registry of "skill" directories and keeps
installed copies synchronized with declared sources.  This file gives a
shallow embedding of the script's core functions and proves the frozen
specification claims about them.

Modelling conventions:

* A directory tree (`FsTree`) is a nested inductive: regular files carry
  their byte content (`List Nat`, one `Nat` per byte), symbolic links carry
  their target string (links are modelled as non-directory entries, which is
  how `os.walk` presents links to files), and directories carry a list of
  named children in the (arbitrary) order the filesystem enumerates them.
* The live filesystem (`FS`) is a flat partial map from path strings to
  whole trees.  Each skill directory is stored as one atomic tree value,
  which matches the granularity at which `update_skills.py` manipulates
  them (`shutil.move` / `shutil.copytree` / `shutil.rmtree` of whole
  skill directories).
* SHA-256 is modelled by its input stream: `_hash_directory` feeds
  `hasher.update` a sequence of byte chunks and returns the digest of the
  concatenated stream, so two runs produce identical digests exactly when
  they feed identical streams (the digest-comparison in `_is_same_skill`
  additionally idealizes SHA-256 as collision-free).  `hashDirectory`
  returns that stream as a list of tagged tokens; each token corresponds
  one-to-one to a consecutive group of `hasher.update` calls.
* Functions that recurse through the nested tree type take an explicit
  fuel argument (`walkF`, `canonF`, `wfF`); the wrappers pass `treeSize` of
  the argument, which is always sufficient fuel, so the wrappers compute
  the same total function the Python code does while every definition
  stays structurally recursive and kernel-evaluable.
-/

/-- A directory tree as enumerated by the filesystem.  `dir` children are
listed in filesystem-enumeration order (arbitrary); file contents are byte
lists; `link` records a symlink target (`os.readlink`). -/
inductive FsTree where
  | file (content : List Nat)
  | link (target : String)
  | dir (entries : List (String × FsTree))

mutual

/-- Size of a tree, used as fuel for the fuelled recursions below. -/
def treeSize : FsTree → Nat
  | .file _ => 1
  | .link _ => 1
  | .dir es => entriesSize es + 1

/-- Size of a directory level. -/
def entriesSize : List (String × FsTree) → Nat
  | [] => 0
  | p :: rest => treeSize p.2 + entriesSize rest + 1

end

/-- One token of the byte stream fed to the SHA-256 hasher by
`_hash_directory`.  `D rel` stands for `update(b"D"); update(rel)`,
`F rel` for `update(b"F"); update(rel_path)`, `L tgt` for
`update(b"L"); update(readlink(...))`, and `bytes c` for the chunked
`update(chunk)` calls streaming a regular file's content. -/
inductive Tok where
  | D (rel : String)
  | F (rel : String)
  | L (target : String)
  | bytes (content : List Nat)
deriving DecidableEq

/-- Directory entry lists, keyed by entry name. -/
abbrev Entries := List (String × FsTree)

/-- Python compares `str` values lexicographically by code point, left to
right; this is the comparison `sorted`/`list.sort` use in
`_hash_directory`. -/
def strLeB : List Char → List Char → Bool
  | [], _ => true
  | _ :: _, [] => false
  | a :: as, b :: bs =>
    if a.toNat < b.toNat then true
    else if b.toNat < a.toNat then false
    else strLeB as bs

theorem strLeB_total : ∀ (x y : List Char), strLeB x y = true ∨ strLeB y x = true := by
  intro x
  induction x with
  | nil => intro y; left; rfl
  | cons a as ih =>
    intro y
    cases y with
    | nil => right; rfl
    | cons b bs =>
      simp only [strLeB]
      rcases Nat.lt_trichotomy a.toNat b.toNat with h | h | h
      · left; rw [if_pos h]
      · rcases ih bs with h2 | h2
        · left
          rw [if_neg (by omega), if_neg (by omega)]
          exact h2
        · right
          rw [if_neg (by omega), if_neg (by omega)]
          exact h2
      · right; rw [if_pos h]

theorem strLeB_trans : ∀ (x y z : List Char), strLeB x y = true → strLeB y z = true →
    strLeB x z = true := by
  intro x
  induction x with
  | nil => intro y z h1 h2; rfl
  | cons a as ih =>
    intro y z h1 h2
    cases y with
    | nil => simp [strLeB] at h1
    | cons b bs =>
      cases z with
      | nil => simp [strLeB] at h2
      | cons c cs =>
        simp only [strLeB] at h1 h2 ⊢
        by_cases hab : a.toNat < b.toNat
        · by_cases hbc : b.toNat < c.toNat
          · rw [if_pos (by omega)]
          · rw [if_neg hbc] at h2
            by_cases hcb : c.toNat < b.toNat
            · rw [if_pos hcb] at h2; simp at h2
            · rw [if_pos (by omega)]
        · rw [if_neg hab] at h1
          by_cases hba : b.toNat < a.toNat
          · rw [if_pos hba] at h1; simp at h1
          · rw [if_neg hba] at h1
            by_cases hbc : b.toNat < c.toNat
            · rw [if_pos (by omega)]
            · rw [if_neg hbc] at h2
              by_cases hcb : c.toNat < b.toNat
              · rw [if_pos hcb] at h2; simp at h2
              · rw [if_neg hcb] at h2
                rw [if_neg (by omega), if_neg (by omega)]
                exact ih bs cs h1 h2

theorem char_eq_of_toNat {a b : Char} (h : a.toNat = b.toNat) : a = b :=
  Char.ext (UInt32.ext h)

theorem string_eq_of_data {s t : String} (h : s.data = t.data) : s = t := by
  cases s; cases t; simp_all

theorem strLeB_antisymm : ∀ (x y : List Char), strLeB x y = true → strLeB y x = true →
    x = y := by
  intro x
  induction x with
  | nil =>
    intro y h1 h2
    cases y with
    | nil => rfl
    | cons b bs => simp [strLeB] at h2
  | cons a as ih =>
    intro y h1 h2
    cases y with
    | nil => simp [strLeB] at h1
    | cons b bs =>
      simp only [strLeB] at h1 h2
      by_cases hab : a.toNat < b.toNat
      · rw [if_neg (by omega), if_pos hab] at h2; simp at h2
      · by_cases hba : b.toNat < a.toNat
        · rw [if_neg hab, if_pos hba] at h1; simp at h1
        · rw [if_neg hab, if_neg hba] at h1
          rw [if_neg hba, if_neg hab] at h2
          rw [char_eq_of_toNat (show a.toNat = b.toNat by omega), ih bs h1 h2]

/-- Name-keyed ordering used to model Python's `sorted`/`list.sort` on the
name lists produced by `os.walk`. -/
def keyLE (a b : String × FsTree) : Prop := strLeB a.1.data b.1.data = true

instance : DecidableRel keyLE :=
  fun a b => inferInstanceAs (Decidable (strLeB a.1.data b.1.data = true))

instance : IsTotal (String × FsTree) keyLE := ⟨fun a b => strLeB_total a.1.data b.1.data⟩

instance : IsTrans (String × FsTree) keyLE :=
  ⟨fun _ _ _ h h2 => strLeB_trans _ _ _ h h2⟩

/-- Sorting the entries of one directory level by name.  Models
`dirnames.sort()` and `sorted(filtered)` in `_hash_directory`: with the
distinct names a real directory level has, sorting the name list and then
looking each name up is the same as sorting the (name, subtree) pairs by
name. -/
def sortByName (l : Entries) : Entries := List.insertionSort keyLE l

/-- `IGNORED_DIRS = {".git", "__pycache__"}`: directory names pruned from
the walk (`dirnames[:] = [d for d in dirnames if d not in IGNORED_DIRS]`). -/
def keepDir (n : String) : Bool := !(n == ".git") && !(n == "__pycache__")

/-- Python `str.endswith`, used for `IGNORED_SUFFIXES`. -/
def pyEndsWith (n suffix : String) : Bool := suffix.data.isSuffixOf n.data

/-- `IGNORED_FILES = {".DS_Store"}` and `IGNORED_SUFFIXES = {".pyc"}`: the
file-name filter in `_hash_directory`. -/
def keepFile (n : String) : Bool := !(n == ".DS_Store") && !(pyEndsWith n ".pyc")

/-- Is this entry listed in `dirnames` (a directory) rather than
`filenames` by `os.walk`? -/
def entryIsDir : FsTree → Bool
  | .dir _ => true
  | _ => false

/-- The children of a directory node (empty for non-directories). -/
def childEntries : FsTree → Entries
  | .dir es => es
  | _ => []

/-- `os.path.relpath(os.path.join(root, name), path)` relative to the walk
root: the root itself is represented by `""` (the code skips hashing it),
and a child of relative directory `rel` has relative path `rel ++ "/" ++
name`. -/
def relJoin (rel n : String) : String := if rel = "" then n else rel ++ "/" ++ n

/-- The hasher updates contributed by one non-directory entry of the file
loop in `_hash_directory`: `update(b"F"); update(rel_path)` followed either
by `update(b"L"); update(link target)` for a symlink or by streaming the
file bytes. -/
def fileToks (rel : String) (p : String × FsTree) : List Tok :=
  Tok.F (relJoin rel p.1) ::
    (match p.2 with
      | .link tg => [Tok.L tg]
      | .file bs => [Tok.bytes bs]
      | .dir _ => [])

/-- The token stream `_hash_directory`'s `os.walk` loop feeds the hasher,
starting from the directory level `es` whose path relative to the hash
root is `rel` (`""` for the root itself).  Per visited directory: a `D`
token unless it is the root, then the sorted, filtered file entries, then
the recursion into the sorted, filtered subdirectories (`os.walk` is
top-down, depth-first, in `dirnames` order).  The `Nat` argument is fuel;
any fuel exceeding `entriesSize es` is enough (see `walkF_congr`). -/
def walkF : Nat → String → Entries → List Tok
  | 0, _, _ => []
  | k+1, rel, es =>
    (if rel = "" then [] else [Tok.D rel]) ++
    (sortByName ((es.filter (fun p => !entryIsDir p.2)).filter
        (fun p => keepFile p.1))).flatMap (fileToks rel) ++
    (sortByName ((es.filter (fun p => entryIsDir p.2)).filter
        (fun p => keepDir p.1))).flatMap
      (fun p => walkF k (relJoin rel p.1) (childEntries p.2))

/-- `_hash_directory(path)` where `path` holds the tree `t`: the digest is
determined by (and modelled as) the stream of hasher updates.  `os.walk`
on a non-directory or missing path yields nothing, hence the empty stream
for non-`dir` trees. -/
def hashDirectory (t : FsTree) : List Tok := walkF (treeSize t) "" (childEntries t)

/-- Recursively sorts every directory level by entry name; fuelled.  Two
filesystem enumerations of the same logical tree have the same `canon`
image, so `canon` equality states "same logical content, possibly
different enumeration order at each level". -/
def canonF : Nat → FsTree → FsTree
  | 0, t => t
  | k+1, .dir es => .dir (sortByName (es.map (fun p => (p.1, canonF k p.2))))
  | _+1, .file bs => .file bs
  | _+1, .link tg => .link tg

/-- Canonical (name-sorted at every level) form of a tree. -/
def canon (t : FsTree) : FsTree := canonF (treeSize t) t

/-- Boolean check that the names at one directory level are pairwise
distinct (true of any level a real filesystem can enumerate). -/
def nodupKeysB : Entries → Bool
  | [] => true
  | p :: rest => rest.all (fun q => !(q.1 == p.1)) && nodupKeysB rest

/-- Well-formedness of a tree as a filesystem snapshot: at every directory
level, entry names are pairwise distinct; fuelled. -/
def wfF : Nat → FsTree → Bool
  | 0, _ => false
  | _+1, .file _ => true
  | _+1, .link _ => true
  | k+1, .dir es => nodupKeysB es && es.all (fun p => wfF k p.2)

/-- A tree that a real filesystem can present: distinct names at every
directory level. -/
def wfTree (t : FsTree) : Bool := wfF (treeSize t) t

/-! ### Size and fuel lemmas -/

theorem treeSize_pos (t : FsTree) : 0 < treeSize t := by
  cases t <;> simp [treeSize]

theorem treeSize_lt_of_mem {es : Entries} {p : String × FsTree} (h : p ∈ es) :
    treeSize p.2 < entriesSize es + 1 := by
  induction es with
  | nil => cases h
  | cons q rest ih =>
    rcases List.mem_cons.1 h with h1 | h2
    · subst h1; simp only [entriesSize]; omega
    · have := ih h2; simp only [entriesSize]; omega

theorem entriesSize_child_lt (t : FsTree) : entriesSize (childEntries t) < treeSize t := by
  cases t <;> simp [childEntries, treeSize, entriesSize]

theorem mem_of_mem_sortByName {l : Entries} {p : String × FsTree}
    (h : p ∈ sortByName l) : p ∈ l :=
  (List.perm_insertionSort keyLE l).mem_iff.1 h

theorem mem_sortByName_of_mem {l : Entries} {p : String × FsTree}
    (h : p ∈ l) : p ∈ sortByName l :=
  (List.perm_insertionSort keyLE l).mem_iff.2 h

theorem mem_of_mem_sortFilter {f g : String × FsTree → Bool} {es : Entries}
    {p : String × FsTree} (h : p ∈ sortByName ((es.filter f).filter g)) : p ∈ es :=
  List.mem_of_mem_filter (List.mem_of_mem_filter (mem_of_mem_sortByName h))

theorem flatMap_congr_mem {α β : Type} :
    ∀ (l : List α) (f g : α → List β), (∀ a ∈ l, f a = g a) →
      l.flatMap f = l.flatMap g := by
  intro l f g
  induction l with
  | nil => intro _; rfl
  | cons a rest ih =>
    intro h
    simp only [List.flatMap_cons]
    rw [h a (List.mem_cons_self a rest), ih (fun b hb => h b (List.mem_cons_of_mem a hb))]

theorem all_congr_mem {α : Type} :
    ∀ (l : List α) (f g : α → Bool), (∀ a ∈ l, f a = g a) → l.all f = l.all g := by
  intro l f g
  induction l with
  | nil => intro _; rfl
  | cons a rest ih =>
    intro h
    simp only [List.all_cons]
    rw [h a (List.mem_cons_self a rest), ih (fun b hb => h b (List.mem_cons_of_mem a hb))]

theorem walkF_congr : ∀ (n : Nat) (es : Entries), entriesSize es ≤ n →
    ∀ (k k2 : Nat) (rel : String), entriesSize es < k → entriesSize es < k2 →
    walkF k rel es = walkF k2 rel es := by
  intro n
  induction n using Nat.strong_induction_on with
  | _ n ih =>
    intro es hn k k2 rel hk hk2
    match k, hk, k2, hk2 with
    | ka+1, hk, kb+1, hk2 =>
      simp only [walkF]
      congr 1
      apply flatMap_congr_mem
      intro p hp
      have hpe : p ∈ es := mem_of_mem_sortFilter hp
      have h1 : treeSize p.2 < entriesSize es + 1 := treeSize_lt_of_mem hpe
      have h2 : entriesSize (childEntries p.2) < treeSize p.2 := entriesSize_child_lt p.2
      have h3 : 0 < treeSize p.2 := treeSize_pos p.2
      exact ih (entriesSize (childEntries p.2)) (by omega) (childEntries p.2)
        (le_refl _) ka kb (relJoin rel p.1) (by omega) (by omega)

theorem canonF_congr : ∀ (n : Nat) (t : FsTree), treeSize t ≤ n →
    ∀ (k k2 : Nat), treeSize t ≤ k → treeSize t ≤ k2 → canonF k t = canonF k2 t := by
  intro n
  induction n using Nat.strong_induction_on with
  | _ n ih =>
    intro t hn k k2 hk hk2
    have hpos := treeSize_pos t
    obtain ⟨ka, rfl⟩ : ∃ j, k = j + 1 := ⟨k - 1, by omega⟩
    obtain ⟨kb, rfl⟩ : ∃ j, k2 = j + 1 := ⟨k2 - 1, by omega⟩
    cases t with
    | file bs => rfl
    | link tg => rfl
    | dir es =>
        simp only [canonF]
        have hmap : es.map (fun p => (p.1, canonF ka p.2)) =
            es.map (fun p => (p.1, canonF kb p.2)) := by
          apply List.map_congr_left
          intro p hp
          have h1 : treeSize p.2 < entriesSize es + 1 := treeSize_lt_of_mem hp
          have ht : treeSize (FsTree.dir es) = entriesSize es + 1 := rfl
          rw [ih (treeSize p.2) (by omega) p.2 (le_refl _) ka kb (by omega) (by omega)]
        rw [hmap]

theorem canonF_eq_canon (k : Nat) (t : FsTree) (h : treeSize t ≤ k) : canonF k t = canon t :=
  canonF_congr (treeSize t) t (le_refl _) k (treeSize t) h (le_refl _)

theorem wfF_congr : ∀ (n : Nat) (t : FsTree), treeSize t ≤ n →
    ∀ (k k2 : Nat), treeSize t ≤ k → treeSize t ≤ k2 → wfF k t = wfF k2 t := by
  intro n
  induction n using Nat.strong_induction_on with
  | _ n ih =>
    intro t hn k k2 hk hk2
    have hpos := treeSize_pos t
    obtain ⟨ka, rfl⟩ : ∃ j, k = j + 1 := ⟨k - 1, by omega⟩
    obtain ⟨kb, rfl⟩ : ∃ j, k2 = j + 1 := ⟨k2 - 1, by omega⟩
    cases t with
    | file bs => rfl
    | link tg => rfl
    | dir es =>
        simp only [wfF]
        have hall : es.all (fun p => wfF ka p.2) = es.all (fun p => wfF kb p.2) := by
          apply all_congr_mem
          intro p hp
          have h1 : treeSize p.2 < entriesSize es + 1 := treeSize_lt_of_mem hp
          have ht : treeSize (FsTree.dir es) = entriesSize es + 1 := rfl
          exact ih (treeSize p.2) (by omega) p.2 (le_refl _) ka kb (by omega) (by omega)
        rw [hall]

theorem wfF_eq_wfTree (k : Nat) (t : FsTree) (h : treeSize t ≤ k) : wfF k t = wfTree t :=
  wfF_congr (treeSize t) t (le_refl _) k (treeSize t) h (le_refl _)

/-! ### Sorted lists with distinct keys -/

/-- Distinct names. -/
def keyNE (a b : String × FsTree) : Prop := a.1 ≠ b.1

/-- Strict name order: at most one entry per name can satisfy it against
another, which is what makes a sorted duplicate-free-keyed list unique. -/
def keyLT (a b : String × FsTree) : Prop := keyLE a b ∧ a.1 ≠ b.1

instance : IsAntisymm (String × FsTree) keyLT :=
  ⟨fun _ _ h h2 =>
    absurd (string_eq_of_data (strLeB_antisymm _ _ h.1 h2.1)) h.2⟩

theorem sortByName_perm (l : Entries) : (sortByName l).Perm l :=
  List.perm_insertionSort keyLE l

theorem sortByName_sorted (l : Entries) : List.Sorted keyLE (sortByName l) :=
  List.sorted_insertionSort keyLE l

theorem nodupKeysB_iff : ∀ (es : Entries), nodupKeysB es = true ↔ List.Pairwise keyNE es := by
  intro es
  induction es with
  | nil => simp [nodupKeysB]
  | cons p rest ih =>
    simp only [nodupKeysB, Bool.and_eq_true, List.all_eq_true, List.pairwise_cons, ih, keyNE]
    constructor
    · rintro ⟨h1, h2⟩
      refine ⟨fun q hq he => ?_, h2⟩
      have := h1 q hq
      rw [he] at this
      simp at this
    · rintro ⟨h1, h2⟩
      refine ⟨fun q hq => ?_, h2⟩
      have := h1 q hq
      simp only [Bool.not_eq_eq_eq_not, Bool.not_true, beq_eq_false_iff_ne]
      exact fun he => this he.symm

theorem pairwise_keyNE_perm {l₁ l₂ : Entries} (hp : l₁.Perm l₂)
    (h : List.Pairwise keyNE l₁) : List.Pairwise keyNE l₂ :=
  (hp.pairwise_iff (fun hxy => Ne.symm hxy)).1 h

theorem sorted_keyLT_of {l : Entries} (hs : List.Sorted keyLE l)
    (hn : List.Pairwise keyNE l) : List.Sorted keyLT l :=
  (hs.and hn).imp (fun h => ⟨h.1, h.2⟩)

/-- Two permutations of the same duplicate-free-keyed entry list sort to the
same list: the model-level reason `_hash_directory` does not depend on the
order `os.walk` reports names. -/
theorem sortByName_eq_of_perm {l₁ l₂ : Entries} (hp : l₁.Perm l₂)
    (hn : List.Pairwise keyNE l₁) : sortByName l₁ = sortByName l₂ := by
  have hperm : (sortByName l₁).Perm (sortByName l₂) :=
    ((sortByName_perm l₁).trans hp).trans (sortByName_perm l₂).symm
  have hn1 : List.Pairwise keyNE (sortByName l₁) :=
    pairwise_keyNE_perm (sortByName_perm l₁).symm hn
  exact List.eq_of_perm_of_sorted hperm
    (sorted_keyLT_of (sortByName_sorted l₁) hn1)
    (sorted_keyLT_of (sortByName_sorted l₂) (pairwise_keyNE_perm hperm hn1))

theorem sortFilter_sortByName {f : String × FsTree → Bool} {l : Entries}
    (hn : List.Pairwise keyNE l) :
    sortByName ((sortByName l).filter f) = sortByName (l.filter f) :=
  sortByName_eq_of_perm (List.Perm.filter f (sortByName_perm l))
    (List.Pairwise.filter f (pairwise_keyNE_perm (sortByName_perm l).symm hn))

theorem orderedInsert_map (g : String × FsTree → String × FsTree)
    (hg : ∀ x, (g x).1 = x.1) (a : String × FsTree) :
    ∀ (l : Entries), List.orderedInsert keyLE (g a) (l.map g) =
      (List.orderedInsert keyLE a l).map g := by
  intro l
  induction l with
  | nil => rfl
  | cons c cs ih =>
    have hiff : keyLE (g a) (g c) ↔ keyLE a c := by simp [keyLE, hg]
    simp only [List.map_cons, List.orderedInsert]
    by_cases h : keyLE a c
    · rw [if_pos (hiff.2 h), if_pos h, List.map_cons, List.map_cons]
    · rw [if_neg (fun hc => h (hiff.1 hc)), if_neg h, List.map_cons, ih]

/-- A name-preserving transformation of the entries commutes with sorting
by name. -/
theorem sortByName_map (g : String × FsTree → String × FsTree)
    (hg : ∀ x, (g x).1 = x.1) :
    ∀ (l : Entries), sortByName (l.map g) = (sortByName l).map g := by
  intro l
  induction l with
  | nil => rfl
  | cons a rest ih =>
    simp only [List.map_cons, sortByName, List.insertionSort] at ih ⊢
    rw [ih, orderedInsert_map g hg a]

/-! ### Canonical form -/

/-- `canon` applied under a name. -/
def canonPair (p : String × FsTree) : String × FsTree := (p.1, canon p.2)

theorem canonPair_fst (p : String × FsTree) : (canonPair p).1 = p.1 := rfl

theorem canon_file (bs : List Nat) : canon (.file bs) = .file bs := rfl

theorem canon_link (tg : String) : canon (.link tg) = .link tg := rfl

theorem canon_dir (es : Entries) :
    canon (.dir es) = .dir (sortByName (es.map canonPair)) := by
  show canonF (entriesSize es + 1) (.dir es) = _
  simp only [canonF]
  have hmap : es.map (fun p => (p.1, canonF (entriesSize es) p.2)) = es.map canonPair := by
    apply List.map_congr_left
    intro p hp
    have h1 : treeSize p.2 < entriesSize es + 1 := treeSize_lt_of_mem hp
    rw [canonPair]
    rw [canonF_eq_canon (entriesSize es) p.2 (by omega)]
  rw [hmap]

theorem entryIsDir_canon (t : FsTree) : entryIsDir (canon t) = entryIsDir t := by
  cases t with
  | file bs => rw [canon_file]
  | link tg => rw [canon_link]
  | dir es => rw [canon_dir]; rfl

theorem fileToks_canonPair (rel : String) (p : String × FsTree) :
    fileToks rel (canonPair p) = fileToks rel p := by
  rcases p with ⟨n, t⟩
  cases t with
  | file bs => simp [fileToks, canonPair, canon_file]
  | link tg => simp [fileToks, canonPair, canon_link]
  | dir es => simp [fileToks, canonPair, canon_dir]

theorem wfTree_dir (es : Entries) :
    wfTree (.dir es) = true ↔
      (nodupKeysB es = true ∧ ∀ p ∈ es, wfTree p.2 = true) := by
  have hstep : wfTree (.dir es) =
      (nodupKeysB es && es.all (fun p => wfF (entriesSize es) p.2)) := by
    show wfF (entriesSize es + 1) (.dir es) = _
    simp only [wfF]
  rw [hstep, Bool.and_eq_true, List.all_eq_true]
  constructor <;> rintro ⟨h1, h2⟩ <;> refine ⟨h1, fun p hp => ?_⟩
  · rw [← wfF_eq_wfTree (entriesSize es) p.2 (by have := treeSize_lt_of_mem hp; omega)]
    exact h2 p hp
  · rw [wfF_eq_wfTree (entriesSize es) p.2 (by have := treeSize_lt_of_mem hp; omega)]
    exact h2 p hp

theorem flatMap_map_comp {α γ β : Type} (g : α → γ) (f : γ → List β) :
    ∀ (l : List α), (l.map g).flatMap f = l.flatMap (fun x => f (g x)) := by
  intro l
  induction l with
  | nil => rfl
  | cons a rest ih => simp only [List.map_cons, List.flatMap_cons, ih]

/-- Core of the determinism claim: the token stream produced by walking a
directory level equals the stream produced by walking its canonical
(recursively name-sorted) form, provided names are distinct at every
level. -/
theorem walk_canonEntries :
    ∀ (n : Nat) (es : Entries), entriesSize es ≤ n → wfTree (.dir es) = true →
    ∀ (rel : String) (k k2 : Nat),
      entriesSize (sortByName (es.map canonPair)) < k → entriesSize es < k2 →
      walkF k rel (sortByName (es.map canonPair)) = walkF k2 rel es := by
  intro n
  induction n using Nat.strong_induction_on with
  | _ n ih =>
    intro es hn hwf rel k k2 hk hk2
    obtain ⟨hnd, hwfc⟩ := (wfTree_dir es).1 hwf
    have hndP : List.Pairwise keyNE es := (nodupKeysB_iff es).1 hnd
    have hndM : List.Pairwise keyNE (es.map canonPair) := by
      rw [List.pairwise_map]
      exact hndP.imp (fun h => h)
    have key : ∀ (f : String × FsTree → Bool), (∀ q, f (canonPair q) = f q) →
        sortByName ((sortByName (es.map canonPair)).filter f) =
          (sortByName (es.filter f)).map canonPair := by
      intro f hf
      have hfc : es.filter (f ∘ canonPair) = es.filter f :=
        List.filter_congr (fun q _ => hf q)
      rw [sortFilter_sortByName hndM, List.filter_map, hfc,
        sortByName_map canonPair (fun x => rfl)]
    obtain ⟨ka, rfl⟩ : ∃ j, k = j + 1 := ⟨k - 1, by omega⟩
    obtain ⟨kb, rfl⟩ : ∃ j, k2 = j + 1 := ⟨k2 - 1, by omega⟩
    simp only [walkF, List.filter_filter]
    have hfiles :
        (sortByName ((sortByName (es.map canonPair)).filter
            (fun a => keepFile a.1 && !entryIsDir a.2))).flatMap (fileToks rel) =
        (sortByName (es.filter (fun a => keepFile a.1 && !entryIsDir a.2))).flatMap
          (fileToks rel) := by
      rw [key _ (fun q => by simp only [canonPair, entryIsDir_canon]),
        flatMap_map_comp]
      exact flatMap_congr_mem _ _ _ (fun p _ => fileToks_canonPair rel p)
    have hdirs :
        (sortByName ((sortByName (es.map canonPair)).filter
            (fun a => keepDir a.1 && entryIsDir a.2))).flatMap
          (fun p => walkF ka (relJoin rel p.1) (childEntries p.2)) =
        (sortByName (es.filter (fun a => keepDir a.1 && entryIsDir a.2))).flatMap
          (fun p => walkF kb (relJoin rel p.1) (childEntries p.2)) := by
      rw [key _ (fun q => by simp only [canonPair, entryIsDir_canon]),
        flatMap_map_comp]
      apply flatMap_congr_mem
      intro p hp
      have hpf := mem_of_mem_sortByName hp
      have hmem : p ∈ es := List.mem_of_mem_filter hpf
      have hGG := List.of_mem_filter hpf
      rcases p with ⟨nm, t⟩
      cases t with
      | file bs => simp [entryIsDir] at hGG
      | link tg => simp [entryIsDir] at hGG
      | dir es2 =>
        have htp : treeSize (FsTree.dir es2) < entriesSize es + 1 :=
          treeSize_lt_of_mem hmem
        have hts : treeSize (FsTree.dir es2) = entriesSize es2 + 1 := rfl
        have hwf2 : wfTree (FsTree.dir es2) = true := hwfc _ hmem
        have hcmem : canonPair (nm, FsTree.dir es2) ∈ sortByName (es.map canonPair) :=
          mem_sortByName_of_mem (List.mem_map_of_mem canonPair hmem)
        have hcsize := treeSize_lt_of_mem hcmem
        have hcts : treeSize (canonPair (nm, FsTree.dir es2)).2 =
            entriesSize (sortByName (es2.map canonPair)) + 1 := by
          simp only [canonPair, canon_dir]
          rfl
        simp only [canonPair, canon_dir, childEntries]
        exact ih (entriesSize es2) (by omega) es2 (le_refl _) hwf2
          (relJoin rel nm) ka kb (by rw [hcts] at hcsize; omega) (by omega)
    rw [hfiles, hdirs]

/-- Fingerprinting a tree gives the same hasher stream as fingerprinting
its canonical form. -/
theorem hashDirectory_canon (t : FsTree) (h : wfTree t = true) :
    hashDirectory (canon t) = hashDirectory t := by
  cases t with
  | file bs => rfl
  | link tg => rfl
  | dir es =>
    rw [canon_dir]
    exact walk_canonEntries (entriesSize es) es (le_refl _) h ""
      (entriesSize (sortByName (es.map canonPair)) + 1) (entriesSize es + 1)
      (Nat.lt_succ_self _) (Nat.lt_succ_self _)

/-- Claim C1: for every directory tree, computing the `_hash_directory`
fingerprint twice without modifying the tree yields identical digests,
regardless of the order in which the filesystem enumerates directory
entries at each level.  Formally: any two enumerations of the same logical
tree (same relative paths, file bytes and symlink targets — i.e. equal
canonical forms) with the distinct per-level names a real filesystem
guarantees produce the same hasher input stream, hence the same SHA-256
digest. -/
theorem hash_directory_order_independent (t₁ t₂ : FsTree)
    (h₁ : wfTree t₁ = true) (h₂ : wfTree t₂ = true) (hc : canon t₁ = canon t₂) :
    hashDirectory t₁ = hashDirectory t₂ := by
  rw [← hashDirectory_canon t₁ h₁, ← hashDirectory_canon t₂ h₂, hc]

/-- Witness for C1 at a concrete pair of enumerations of one tree. -/
theorem hash_directory_order_independent_witness :
    wfTree (.dir [("b", .file [1, 2]), ("a", .dir [("y", .link "t"), ("x", .file [3])])]) =
        true ∧
    wfTree (.dir [("a", .dir [("x", .file [3]), ("y", .link "t")]), ("b", .file [1, 2])]) =
        true ∧
    canon (.dir [("b", .file [1, 2]), ("a", .dir [("y", .link "t"), ("x", .file [3])])]) =
      canon (.dir [("a", .dir [("x", .file [3]), ("y", .link "t")]), ("b", .file [1, 2])]) ∧
    hashDirectory
        (.dir [("b", .file [1, 2]), ("a", .dir [("y", .link "t"), ("x", .file [3])])]) =
      hashDirectory
        (.dir [("a", .dir [("x", .file [3]), ("y", .link "t")]), ("b", .file [1, 2])]) :=
  ⟨rfl, rfl, rfl, hash_directory_order_independent _ _ rfl rfl rfl⟩

/-! ### The live filesystem -/

/-- The live filesystem: a flat partial map from path strings to whole
directory trees.  `update_skills.py` only ever moves, copies and deletes
whole skill directories, so each one is stored as a single atomic tree
value under its path. -/
def FS : Type := String → Option FsTree

/-- Placing a whole tree at a path (`shutil.copytree` target, or the
directory creation part of `tempfile.mkdtemp` / `os.makedirs`). -/
def fsInsert (p : String) (t : FsTree) (s : FS) : FS :=
  fun q => if q = p then some t else s q

/-- `shutil.move(src, dst)` of a whole directory: the tree leaves `src`
and appears at `dst` (a rename on one filesystem). -/
def fsMove (src dst : String) (s : FS) : FS :=
  fun q => if q = dst then s src else if q = src then none else s q

/-- Is `q` the path `root` itself, or strictly below it? -/
def pathUnder (root q : String) : Bool :=
  q == root || (root ++ "/").data.isPrefixOf q.data

/-- `shutil.rmtree(p, ignore_errors=True)`: removes the tree at `p` and
anything below it. -/
def fsRemoveTree (p : String) (s : FS) : FS :=
  fun q => if pathUnder p q then none else s q

/-- `os.makedirs(p, exist_ok=True)` in the flat model: create an empty
directory at `p` unless something already exists there. -/
def fsMakeDirs (p : String) (s : FS) : FS :=
  if (s p).isSome then s else fsInsert p (.dir []) s

/-- `os.path.isdir(p)`. -/
def isDirAt (s : FS) (p : String) : Bool :=
  match s p with
  | some (.dir _) => true
  | _ => false

/-- `_hash_directory(p)` on the live filesystem: `os.walk` of a missing or
non-directory path yields no triples, so the hasher stream is empty in
those cases. -/
def hashAt (s : FS) (p : String) : List Tok :=
  match s p with
  | some t => hashDirectory t
  | none => []

/-- `os.path.join(a, b)` for the normal relative names this script joins. -/
def pathJoin (a b : String) : String := a ++ "/" ++ b

/-- Error tags for the exceptions `update_skills.py` raises; each tag
stands for the descriptive message the code attaches. -/
inductive Err where
  | skillDirMissing
  | manifestMissing
  | badRepoPath
  | multiPath
  | missingRepoPath
  | installerMissing
  | subprocessFailed
  | moveFailed
deriving DecidableEq

/-- Is this tree a regular file? -/
def entryIsFile : FsTree → Bool
  | .file _ => true
  | _ => false

/-- Does the tree contain the manifest marker `SKILL.md` as a regular file
at its root (`os.path.isfile(os.path.join(path, "SKILL.md"))`)? -/
def hasManifest : FsTree → Bool
  | .dir es => es.any (fun p => p.1 == "SKILL.md" && entryIsFile p.2)
  | _ => false

/-- `os.path.isfile(os.path.join(path, "SKILL.md"))` for the tree at
`path`. -/
def hasManifestAt (s : FS) (p : String) : Bool :=
  match s p with
  | some t => hasManifest t
  | none => false

/-- `_validate_skill_dir(path)`: error unless `path` is a directory
containing `SKILL.md` (the code's two sequential checks). -/
def validate_skill_dir (s : FS) (path : String) : Option Err :=
  if isDirAt s path = false then some .skillDirMissing
  else if hasManifestAt s path = false then some .manifestMissing
  else none

/-- `_is_same_skill(dest_path, new_path)`: `False` when the installed path
is not a directory, otherwise digest equality of the two fingerprints
(streams, with SHA-256 idealized as collision-free).  The second component
is a ghost trace of the paths `_hash_directory` is invoked on, in call
order. -/
def is_same_skill (s : FS) (dest_path new_path : String) : Bool × List String :=
  if isDirAt s dest_path = false then (false, [])
  else (decide (hashAt s dest_path = hashAt s new_path), [dest_path, new_path])

/-- `_replace_skill(dest_root, name, new_path, keep_backup)`.  `ts` is the
`time.strftime` timestamp used for the backup name; `finalMoveFails`
injects a failure into the `shutil.move(new_path, dest_path)` step (the
spec's "final move step made to fail artificially") while every other
primitive behaves normally.  Returns the filesystem after the call and
`some .moveFailed` exactly when the injected failure is re-raised. -/
def replace_skill (s : FS) (dest_root name new_path : String)
    (keep_backup : Bool) (ts : String) (finalMoveFails : Bool) :
    FS × Option Err :=
  let s0 := fsMakeDirs dest_root s
  let dest_path := pathJoin dest_root name
  if (s0 dest_path).isSome then
    let backup_path := dest_path ++ ".bak-" ++ ts
    let s1 := fsMove dest_path backup_path s0
    if finalMoveFails then
      if (s1 backup_path).isSome && (s1 dest_path).isNone then
        (fsMove backup_path dest_path s1, some .moveFailed)
      else (s1, some .moveFailed)
    else
      let s2 := fsMove new_path dest_path s1
      (if keep_backup then s2 else fsRemoveTree backup_path s2, none)
  else
    if finalMoveFails then (s0, some .moveFailed)
    else (fsMove new_path dest_path s0, none)

theorem string_ne_of_length {a b : String} (h : a.length ≠ b.length) : a ≠ b :=
  fun he => h (congrArg String.length he)

theorem pathJoin_ne_left (a b : String) : pathJoin a b ≠ a := by
  apply string_ne_of_length
  simp only [pathJoin, String.length_append]
  have h1 : ("/" : String).length = 1 := rfl
  omega

theorem backup_ne_dest (dp ts : String) : dp ++ ".bak-" ++ ts ≠ dp := by
  apply string_ne_of_length
  simp only [String.length_append]
  have h5 : (".bak-" : String).length = 5 := rfl
  omega

/-- Claim C2: in `_replace_skill`, if the final move of the staged
candidate into the target fails, and a backup was made (an installed copy
existed, so it was moved aside), then — the target being still vacant —
the backup is restored to the target path and the original failure is
re-raised: the function returns the error and the installed path holds
exactly the tree it held before the call. -/
theorem replace_skill_rollback (s : FS) (dest_root name new_path ts : String)
    (keep_backup : Bool)
    (hinst : (s (pathJoin dest_root name)).isSome = true) :
    (replace_skill s dest_root name new_path keep_backup ts true).2 =
        some .moveFailed ∧
    (replace_skill s dest_root name new_path keep_backup ts true).1
        (pathJoin dest_root name) = s (pathJoin dest_root name) := by
  have hne1 : pathJoin dest_root name ≠ dest_root := pathJoin_ne_left dest_root name
  have hne2 : pathJoin dest_root name ++ ".bak-" ++ ts ≠ pathJoin dest_root name :=
    backup_ne_dest (pathJoin dest_root name) ts
  have hs0 : fsMakeDirs dest_root s (pathJoin dest_root name) =
      s (pathJoin dest_root name) := by
    by_cases h : (s dest_root).isSome <;> simp [fsMakeDirs, fsInsert, h, hne1]
  constructor <;>
    simp [replace_skill, fsMove, hs0, hinst, hne2, Ne.symm hne2]

/-- Witness for C2: a concrete filesystem with an installed skill at
`root/skill`; the failing final move returns the error and leaves the
installed tree in place. -/
theorem replace_skill_rollback_witness :
    ((fun p => if p = "root/skill"
        then some (FsTree.dir [("SKILL.md", FsTree.file [104])]) else none : FS)
      (pathJoin "root" "skill")).isSome = true ∧
    (replace_skill
        (fun p => if p = "root/skill"
          then some (FsTree.dir [("SKILL.md", FsTree.file [104])]) else none)
        "root" "skill" "/tmp/stage/skill" false "20240101000000" true).2 =
      some .moveFailed ∧
    (replace_skill
        (fun p => if p = "root/skill"
          then some (FsTree.dir [("SKILL.md", FsTree.file [104])]) else none)
        "root" "skill" "/tmp/stage/skill" false "20240101000000" true).1
        (pathJoin "root" "skill") =
      some (FsTree.dir [("SKILL.md", FsTree.file [104])]) := by
  refine ⟨rfl, ?_, ?_⟩
  · exact (replace_skill_rollback
      (fun p => if p = "root/skill"
        then some (FsTree.dir [("SKILL.md", FsTree.file [104])]) else none)
      "root" "skill" "/tmp/stage/skill" "20240101000000" false rfl).1
  · have h := (replace_skill_rollback
      (fun p => if p = "root/skill"
        then some (FsTree.dir [("SKILL.md", FsTree.file [104])]) else none)
      "root" "skill" "/tmp/stage/skill" "20240101000000" false rfl).2
    rw [h]
    rfl

/-- Claim C9: `_is_same_skill` returns `False` whenever the installed path
does not exist or is not a directory, and its fingerprint-call trace is
empty — `_hash_directory` is never applied to the missing installed path,
so a first-time install always takes the "changed" path. -/
theorem is_same_skill_missing (s : FS) (dest_path new_path : String)
    (h : isDirAt s dest_path = false) :
    is_same_skill s dest_path new_path = (false, []) := by
  simp [is_same_skill, h]

/-- Witness for C9 on the empty filesystem. -/
theorem is_same_skill_missing_witness :
    isDirAt (fun _ => none) "dest/foo" = false ∧
    is_same_skill (fun _ => none) "dest/foo" "/tmp/stage/foo" = (false, []) :=
  ⟨rfl, is_same_skill_missing _ _ _ rfl⟩

/-! ### Repository-path validation (`_validate_repo_path`) -/

/-- Python `str.split("/")` on code points: splits at every slash, keeping
empty pieces (so an empty string yields one empty piece). -/
def splitSlash : List Char → List (List Char)
  | [] => [[]]
  | c :: rest =>
    if c = '/' then [] :: splitSlash rest
    else
      match splitSlash rest with
      | r :: rs => (c :: r) :: rs
      | [] => [[c]]

/-- `posixpath.isabs(p)`: the path starts with `"/"`. -/
def pyIsAbs (p : List Char) : Bool := ['/'].isPrefixOf p

/-- The number of leading slashes `posixpath.normpath` preserves: 0 for a
relative path, 2 when the path starts with exactly two slashes, else 1. -/
def initialSlashes (p : List Char) : Nat :=
  if pyIsAbs p = false then 0
  else if ['/', '/'].isPrefixOf p ∧ ¬(['/', '/', '/'].isPrefixOf p) then 2
  else 1

/-- One step of `posixpath.normpath`'s component loop: drop empty and `"."`
components; append a component unless it is a collapsible `".."`; pop the
last kept component for a collapsible `".."` (or drop it entirely at the
root of an absolute path). -/
def normStep (hasInitialSlash : Bool) (acc : List (List Char)) (comp : List Char) :
    List (List Char) :=
  if comp = [] ∨ comp = ['.'] then acc
  else if comp ≠ ['.', '.'] ∨ (hasInitialSlash = false ∧ acc = []) ∨
      (acc ≠ [] ∧ acc.getLast? = some ['.', '.']) then
    acc ++ [comp]
  else if acc ≠ [] then acc.dropLast
  else acc

/-- The component list `posixpath.normpath` keeps for `p`. -/
def normParts (p : List Char) : List (List Char) :=
  (splitSlash p).foldl (normStep (decide (initialSlashes p ≠ 0))) []

/-- `"/".join(comps)` on code points. -/
def joinSlash : List (List Char) → List Char
  | [] => []
  | [a] => a
  | a :: b :: rest => a ++ '/' :: joinSlash (b :: rest)

/-- `posixpath.normpath(p)`. -/
def pyNormpath (p : List Char) : List Char :=
  if p = [] then ['.']
  else
    let joined := List.replicate (initialSlashes p) '/' ++ joinSlash (normParts p)
    if joined = [] then ['.'] else joined

/-- `_validate_repo_path(path)`: raises exactly when the path is absolute
or its normalized form starts with the two characters `".."` (a Python
`str.startswith("..")` check on the normalized string). -/
def validate_repo_path (p : List Char) : Option Err :=
  if pyIsAbs p = true ∨ ['.', '.'].isPrefixOf (pyNormpath p) = true then
    some .badRepoPath
  else none

/-- The spec's notion of a repository-relative path escaping the
repository root: after normalization the path begins with a `".."`
component. -/
def escapesRoot (p : List Char) : Bool :=
  decide ((normParts p).head? = some ['.', '.'])

theorem normParts_nil : normParts ([] : List Char) = [] := rfl

/-- A relative path whose normalized form begins with a `".."` component
normalizes to a string starting with `".."`. -/
theorem escapes_startsWith {p : List Char} (h : escapesRoot p = true)
    (habs : pyIsAbs p = false) :
    ['.', '.'].isPrefixOf (pyNormpath p) = true := by
  have hne : p ≠ [] := by
    intro he
    rw [he] at h
    simp [escapesRoot, normParts_nil] at h
  have hparts : (normParts p).head? = some ['.', '.'] := by
    simpa [escapesRoot] using h
  obtain ⟨rest, hrest⟩ : ∃ rest, normParts p = ['.', '.'] :: rest := by
    cases hp : normParts p with
    | nil => rw [hp] at hparts; simp at hparts
    | cons a r =>
      rw [hp] at hparts
      simp at hparts
      exact ⟨r, by rw [hparts]⟩
  have hsl : initialSlashes p = 0 := by simp [initialSlashes, habs]
  have hpre : ['.', '.'] <+: joinSlash (normParts p) := by
    rw [hrest]
    cases rest with
    | nil => exact List.prefix_refl _
    | cons b bs =>
      show ['.', '.'] <+: ['.', '.'] ++ '/' :: joinSlash (b :: bs)
      exact List.prefix_append _ _
  have hjoined : List.replicate (initialSlashes p) '/' ++ joinSlash (normParts p) =
      joinSlash (normParts p) := by
    rw [hsl]; rfl
  have hnonnil : joinSlash (normParts p) ≠ [] := by
    rw [hrest]
    cases rest <;> simp [joinSlash]
  rw [pyNormpath, if_neg hne]
  simp only [hjoined, if_neg hnonnil]
  exact List.isPrefixOf_iff_prefix.2 hpre

/-! ### Source records and the fetch collaborator (`_install_from_github`) -/

/-- The `path` field of a source record: a JSON string or list of strings. -/
inductive PathVal where
  | str (s : String)
  | list (l : List String)
deriving DecidableEq

/-- A source record (one value of the registry's `skills` mapping, a JSON
object).  A field `some x` models the key being present with a string (or
list) value; `extra` models the presence of any additional key, or of one
of these keys with a value of another type (such as `null`), which affects
only the record's dict-truthiness. -/
structure Entry where
  local_path : Option String
  url : Option String
  repo : Option String
  path : Option PathVal
  ref : Option String
  method : Option String
  extra : Bool
deriving DecidableEq

/-- The record with no keys (`{}`). -/
def Entry.empty : Entry := ⟨none, none, none, none, none, none, false⟩

/-- Python truthiness of a string read with `entry.get(...)`: falsy when
the key is absent or the string is empty. -/
def strTruthy : Option String → Bool
  | none => false
  | some s => !s.data.isEmpty

/-- Python truthiness of the record as a dict (`if not entry: continue` in
`_cmd_update`): only the empty dict is falsy. -/
def entryTruthy (e : Entry) : Bool :=
  e.local_path.isSome || e.url.isSome || e.repo.isSome || e.path.isSome ||
    e.ref.isSome || e.method.isSome || e.extra

/-- `subprocess.run(cmd, check=True)` for the fetch collaborator, as an
oracle: on a zero exit (`subOk`) the collaborator has left the tree
`produced` under `<stage_root>/<name>` (its contract); a non-zero exit
raises `CalledProcessError`.  The last component records that the
subprocess was invoked. -/
def runFetch (name stage_root : String) (s : FS) (subOk : Bool)
    (produced : FsTree) : FS × Option Err × Bool :=
  if subOk then (fsInsert (pathJoin stage_root name) produced s, none, true)
  else (s, some .subprocessFailed, true)

/-- The tail of `_install_from_github` once the `path` field has been
normalized to an optional string: the `if not repo or not repo_path` check,
`_validate_repo_path`, then the fetch subprocess.  (The optional `ref` and
`method` fields only append flags to the subprocess command line, which
the oracle absorbs.) -/
def checkRepoAndRun (repo repo_path : Option String) (name stage_root : String)
    (s : FS) (subOk : Bool) (produced : FsTree) : FS × Option Err × Bool :=
  if strTruthy repo = false ∨ strTruthy repo_path = false then
    (s, some .missingRepoPath, false)
  else
    match repo_path with
    | none => (s, some .missingRepoPath, false)
    | some p =>
      match validate_repo_path p.data with
      | some e => (s, some e, false)
      | none => runFetch name stage_root s subOk produced

/-- `_install_from_github(entry, name, stage_root, installer_path)`:
either the `--url` variant, or the `--repo`/`--path` variant with the
path-list normalization (`isinstance(repo_path, list)` must have exactly
one element), truthiness check and `_validate_repo_path`.  Returns the
filesystem after the call, the raised error if any, and a ghost flag
recording whether the fetch subprocess was invoked. -/
def install_from_github (entry : Entry) (name stage_root : String) (s : FS)
    (subOk : Bool) (produced : FsTree) : FS × Option Err × Bool :=
  if entry.url.isSome then runFetch name stage_root s subOk produced
  else
    match entry.path with
    | some (.list l) =>
      if l.length ≠ 1 then (s, some .multiPath, false)
      else checkRepoAndRun entry.repo l.head? name stage_root s subOk produced
    | some (.str p) =>
      checkRepoAndRun entry.repo (some p) name stage_root s subOk produced
    | none => checkRepoAndRun entry.repo none name stage_root s subOk produced

/-- Claim C6: `_validate_repo_path` rejects with an error every absolute
repository path and every path that escapes the repository root after
normalization (normalized form beginning with a `".."` component), and for
a remote-by-repo-path record this rejection happens before any staging:
`_install_from_github` returns the error with the filesystem untouched and
the fetch subprocess never invoked. -/
theorem validate_repo_path_rejects (p : String)
    (hp : pyIsAbs p.data = true ∨ escapesRoot p.data = true) :
    validate_repo_path p.data = some .badRepoPath ∧
    ∀ (entry : Entry) (name stage_root : String) (s : FS) (subOk : Bool)
      (produced : FsTree), entry.url = none → entry.path = some (.str p) →
      strTruthy entry.repo = true →
      install_from_github entry name stage_root s subOk produced =
        (s, some .badRepoPath, false) := by
  have hval : validate_repo_path p.data = some .badRepoPath := by
    rcases hp with h | h
    · simp [validate_repo_path, h]
    · by_cases habs : pyIsAbs p.data = true
      · simp [validate_repo_path, habs]
      · have hpre := escapes_startsWith h (by simpa using habs)
        simp [validate_repo_path, hpre]
  have hne : p.data ≠ [] := by
    intro he
    rcases hp with h | h
    · rw [pyIsAbs, he] at h
      simp [List.isPrefixOf] at h
    · rw [he] at h
      simp [escapesRoot, normParts_nil] at h
  refine ⟨hval, ?_⟩
  intro entry name stage_root s subOk produced hurl hpath hrepo
  have hptruthy : strTruthy (some p) = true := by
    simp [strTruthy, List.isEmpty_iff, hne]
  simp [install_from_github, hurl, hpath, checkRepoAndRun, hrepo, hptruthy, hval]

/-- Witness for C6 at the spec's example path `"../x"`. -/
theorem validate_repo_path_rejects_witness :
    escapesRoot ("../x".data) = true ∧
    validate_repo_path ("../x".data) = some .badRepoPath ∧
    install_from_github
        ⟨none, none, some "owner/repo", some (.str "../x"), none, none, false⟩
        "foo" "/tmp/stage" (fun _ => none) true (.dir []) =
      ((fun _ => none : FS), some .badRepoPath, false) :=
  ⟨rfl, (validate_repo_path_rejects "../x" (Or.inr rfl)).1,
    (validate_repo_path_rejects "../x" (Or.inr rfl)).2
      ⟨none, none, some "owner/repo", some (.str "../x"), none, none, false⟩
      "foo" "/tmp/stage" (fun _ => none) true (.dir []) rfl rfl rfl⟩

/-- Claim C10: `_validate_repo_path` raises exactly when the path is
absolute or its normalized form starts with the two-character string
`".."`; consequently a relative path that does not escape the repository
root but whose name begins with two dots — such as `"..data"` — is still
rejected. -/
theorem validate_repo_path_startswith :
    (∀ (p : List Char), validate_repo_path p = some .badRepoPath ↔
        (pyIsAbs p = true ∨ ['.', '.'].isPrefixOf (pyNormpath p) = true)) ∧
    validate_repo_path "..data".data = some .badRepoPath ∧
    pyIsAbs "..data".data = false ∧
    escapesRoot "..data".data = false := by
  refine ⟨?_, rfl, rfl, rfl⟩
  intro p
  rw [validate_repo_path]
  split_ifs with h
  · exact iff_of_true rfl h
  · exact iff_of_false (by simp) h

/-! ### The per-skill update workflow (`_update_one`) -/

theorem fsInsert_ne (p : String) (t : FsTree) (s : FS) {q : String} (h : q ≠ p) :
    fsInsert p t s q = s q := by simp [fsInsert, h]

theorem fsInsert_self (p : String) (t : FsTree) (s : FS) : fsInsert p t s p = some t := by
  simp [fsInsert]

theorem validate_skill_dir_congr {s1 s2 : FS} {p : String} (h : s1 p = s2 p) :
    validate_skill_dir s1 p = validate_skill_dir s2 p := by
  unfold validate_skill_dir isDirAt hasManifestAt; rw [h]

theorem hashAt_congr {s1 s2 : FS} {p : String} (h : s1 p = s2 p) :
    hashAt s1 p = hashAt s2 p := by
  unfold hashAt; rw [h]

theorem isDirAt_congr {s1 s2 : FS} {p : String} (h : s1 p = s2 p) :
    isDirAt s1 p = isDirAt s2 p := by
  unfold isDirAt; rw [h]

theorem pathUnder_self (r : String) : pathUnder r r = true := by simp [pathUnder]

theorem pathJoin_data (q b : String) : (pathJoin q b).data = (q ++ "/").data ++ b.data := by
  rw [pathJoin, String.data_append]

theorem pathUnder_pathJoin (r q b : String) (h : pathUnder r q = true) :
    pathUnder r (pathJoin q b) = true := by
  simp only [pathUnder, Bool.or_eq_true, beq_iff_eq] at h ⊢
  right
  rw [List.isPrefixOf_iff_prefix, pathJoin_data]
  rcases h with h | h
  · subst h
    exact List.prefix_append _ _
  · rw [List.isPrefixOf_iff_prefix, String.data_append] at h
    rw [String.data_append q, List.append_assoc]
    exact h.trans (List.prefix_append _ _)

/-- Per-skill oracle inputs for one `_update_one` call: the fresh
temporary root returned by `tempfile.mkdtemp`, the `time.strftime` backup
timestamp, whether `_resolve_installer_path` finds the installer script,
the fetch-subprocess oracle of `runFetch`, and the C2 failure injection
for the final move. -/
structure UpdOracle where
  tmpRoot : String
  ts : String
  installerOk : Bool
  subOk : Bool
  produced : FsTree
  finalMoveFails : Bool

/-- The tail of `_update_one` after staging produced `s2`: validate the
staged candidate, short-circuit on equal fingerprints, otherwise run the
replacement transaction.  Returns the filesystem, the outcome (`.ok
false` = "unchanged", `.ok true` = "updated", `.error` = raised) and a
ghost flag recording whether `_replace_skill` was invoked. -/
def update_one_afterStage (s2 : FS) (name dest_root : String)
    (keep_backup : Bool) (o : UpdOracle) (stage_root : String) :
    FS × Except Err Bool × Bool :=
  let new_path := pathJoin stage_root name
  match validate_skill_dir s2 new_path with
  | some e => (s2, .error e, false)
  | none =>
    let dest_path := pathJoin dest_root name
    if (is_same_skill s2 dest_path new_path).1 then (s2, .ok false, false)
    else
      match replace_skill s2 dest_root name new_path keep_backup o.ts
          o.finalMoveFails with
      | (s3, some e) => (s3, .error e, true)
      | (s3, none) => (s3, .ok true, true)

/-- `_update_one(name, entry, dest_root, args)`: create the temporary
staging root, stage the candidate (local `shutil.copytree` after
`_validate_skill_dir`, or `_resolve_installer_path` followed by
`_install_from_github`), validate it, compare fingerprints, replace if
different, and unconditionally tear the temporary root down (`finally:
shutil.rmtree(tmp_root, ignore_errors=True)`).  `_expand_path` is the
identity on the already-absolute paths modelled here. -/
def update_one (s : FS) (name : String) (entry : Entry) (dest_root : String)
    (keep_backup : Bool) (o : UpdOracle) : FS × Except Err Bool × Bool :=
  let stage_root := pathJoin o.tmpRoot "stage"
  let s1 := fsInsert stage_root (.dir []) (fsInsert o.tmpRoot (.dir []) s)
  let core :=
    match entry.local_path with
    | some lp =>
      match validate_skill_dir s1 lp with
      | some e => (s1, Except.error e, false)
      | none =>
        let s2 := fsInsert (pathJoin stage_root name) ((s1 lp).getD (.dir [])) s1
        update_one_afterStage s2 name dest_root keep_backup o stage_root
    | none =>
      if o.installerOk = false then (s1, Except.error Err.installerMissing, false)
      else
        match install_from_github entry name stage_root s1 o.subOk o.produced with
        | (s2, some e, _) => (s2, Except.error e, false)
        | (s2, none, _) =>
          update_one_afterStage s2 name dest_root keep_backup o stage_root
  (fsRemoveTree o.tmpRoot core.1, core.2.1, core.2.2)

theorem validate_skill_dir_none_iff (s : FS) (p : String) :
    validate_skill_dir s p = none ↔
      (isDirAt s p = true ∧ hasManifestAt s p = true) := by
  unfold validate_skill_dir
  split_ifs with h1 h2 <;> simp_all

theorem isDirAt_none {s : FS} {p : String} (h : s p = none) : isDirAt s p = false := by
  unfold isDirAt; rw [h]

theorem ne_of_pathUnder {r q p : String} (hq : pathUnder r q = false)
    (hp : pathUnder r p = true) : q ≠ p := fun he => by rw [he, hp] at hq; cases hq

theorem getD_of_isDir {s : FS} {p : String} (h : isDirAt s p = true) :
    s p = some ((s p).getD (FsTree.dir [])) := by
  unfold isDirAt at h
  cases hsp : s p with
  | none => rw [hsp] at h; cases h
  | some t => rfl

theorem isDir_getD {s : FS} {p : String} (h : isDirAt s p = true) :
    entryIsDir ((s p).getD (FsTree.dir [])) = true := by
  unfold isDirAt at h
  cases hsp : s p with
  | none => rw [hsp] at h; cases h
  | some t =>
    rw [hsp] at h
    cases t <;> simp_all [entryIsDir]

theorem isDirAt_of_eq {s2 : FS} {p : String} {t : FsTree} (h : s2 p = some t)
    (hd : entryIsDir t = true) : isDirAt s2 p = true := by
  unfold isDirAt
  rw [h]
  cases t <;> simp_all [entryIsDir]

theorem hasManifestAt_of_eq {s2 : FS} {p : String} {t : FsTree} (h : s2 p = some t) :
    hasManifestAt s2 p = hasManifest t := by
  unfold hasManifestAt; rw [h]

theorem hashAt_of_eq {s2 : FS} {p : String} {t : FsTree} (h : s2 p = some t) :
    hashAt s2 p = hashDirectory t := by
  unfold hashAt; rw [h]

/-- If the staged candidate is a valid skill directory whose fingerprint
equals the installed copy, the tail of `_update_one` reports "unchanged",
leaves the filesystem as staged, and does not invoke `_replace_skill`. -/
theorem update_one_afterStage_unchanged (s2 : FS) (name dest_root : String)
    (keep_backup : Bool) (o : UpdOracle) (stage_root : String)
    (hv : validate_skill_dir s2 (pathJoin stage_root name) = none)
    (hsame : (is_same_skill s2 (pathJoin dest_root name)
        (pathJoin stage_root name)).1 = true) :
    update_one_afterStage s2 name dest_root keep_backup o stage_root =
      (s2, .ok false, false) := by
  simp only [update_one_afterStage, hv, hsame, if_true]

/-- Claim C3: for a skill whose staged candidate's fingerprint equals the
installed copy's fingerprint, `_update_one` reports "unchanged" (returns
`False`), does not invoke the replacement transaction, creates no backup,
and leaves the whole filesystem — in particular the installed directory
and its fingerprint — unmodified (the temporary staging root is fresh and
torn down again). -/
theorem update_one_unchanged (s : FS) (name lp dest_root : String) (entry : Entry)
    (keep_backup : Bool) (o : UpdOracle)
    (hfresh : ∀ q, pathUnder o.tmpRoot q = true → s q = none)
    (hlp : entry.local_path = some lp)
    (hlv : validate_skill_dir s lp = none)
    (hdest : isDirAt s (pathJoin dest_root name) = true)
    (hhash : hashAt s (pathJoin dest_root name) = hashAt s lp) :
    (update_one s name entry dest_root keep_backup o).2.1 = .ok false ∧
    (update_one s name entry dest_root keep_backup o).2.2 = false ∧
    ∀ q, (update_one s name entry dest_root keep_backup o).1 q = s q := by
  obtain ⟨hlpdir, hlpman⟩ := (validate_skill_dir_none_iff s lp).1 hlv
  have hU_SR : pathUnder o.tmpRoot (pathJoin o.tmpRoot "stage") = true :=
    pathUnder_pathJoin _ _ _ (pathUnder_self _)
  have hU_SP : pathUnder o.tmpRoot (pathJoin (pathJoin o.tmpRoot "stage") name) = true :=
    pathUnder_pathJoin _ _ _ hU_SR
  have hlpP : pathUnder o.tmpRoot lp = false := by
    by_cases h : pathUnder o.tmpRoot lp = true
    · rw [isDirAt_none (hfresh lp h)] at hlpdir; cases hlpdir
    · simpa using h
  have hDPP : pathUnder o.tmpRoot (pathJoin dest_root name) = false := by
    by_cases h : pathUnder o.tmpRoot (pathJoin dest_root name) = true
    · rw [isDirAt_none (hfresh _ h)] at hdest; cases hdest
    · simpa using h
  have hs1lp : fsInsert (pathJoin o.tmpRoot "stage") (FsTree.dir [])
      (fsInsert o.tmpRoot (FsTree.dir []) s) lp = s lp := by
    rw [fsInsert_ne _ _ _ (ne_of_pathUnder hlpP hU_SR),
      fsInsert_ne _ _ _ (ne_of_pathUnder hlpP (pathUnder_self _))]
  have hs1DP : fsInsert (pathJoin o.tmpRoot "stage") (FsTree.dir [])
      (fsInsert o.tmpRoot (FsTree.dir []) s) (pathJoin dest_root name) =
      s (pathJoin dest_root name) := by
    rw [fsInsert_ne _ _ _ (ne_of_pathUnder hDPP hU_SR),
      fsInsert_ne _ _ _ (ne_of_pathUnder hDPP (pathUnder_self _))]
  have hv1 : validate_skill_dir (fsInsert (pathJoin o.tmpRoot "stage") (FsTree.dir [])
      (fsInsert o.tmpRoot (FsTree.dir []) s)) lp = none := by
    rw [validate_skill_dir_congr hs1lp]; exact hlv
  have hs2SP : fsInsert (pathJoin (pathJoin o.tmpRoot "stage") name)
      ((fsInsert (pathJoin o.tmpRoot "stage") (FsTree.dir [])
          (fsInsert o.tmpRoot (FsTree.dir []) s) lp).getD (FsTree.dir []))
      (fsInsert (pathJoin o.tmpRoot "stage") (FsTree.dir [])
        (fsInsert o.tmpRoot (FsTree.dir []) s))
      (pathJoin (pathJoin o.tmpRoot "stage") name) =
      some ((s lp).getD (FsTree.dir [])) := by
    rw [fsInsert_self, hs1lp]
  have hs2DP : fsInsert (pathJoin (pathJoin o.tmpRoot "stage") name)
      ((fsInsert (pathJoin o.tmpRoot "stage") (FsTree.dir [])
          (fsInsert o.tmpRoot (FsTree.dir []) s) lp).getD (FsTree.dir []))
      (fsInsert (pathJoin o.tmpRoot "stage") (FsTree.dir [])
        (fsInsert o.tmpRoot (FsTree.dir []) s))
      (pathJoin dest_root name) = s (pathJoin dest_root name) := by
    rw [fsInsert_ne _ _ _ (ne_of_pathUnder hDPP hU_SP), hs1DP]
  have hv2 : validate_skill_dir
      (fsInsert (pathJoin (pathJoin o.tmpRoot "stage") name)
        ((fsInsert (pathJoin o.tmpRoot "stage") (FsTree.dir [])
            (fsInsert o.tmpRoot (FsTree.dir []) s) lp).getD (FsTree.dir []))
        (fsInsert (pathJoin o.tmpRoot "stage") (FsTree.dir [])
          (fsInsert o.tmpRoot (FsTree.dir []) s)))
      (pathJoin (pathJoin o.tmpRoot "stage") name) = none := by
    apply (validate_skill_dir_none_iff _ _).2
    constructor
    · exact isDirAt_of_eq hs2SP (isDir_getD hlpdir)
    · rw [hasManifestAt_of_eq hs2SP, ← hasManifestAt_of_eq (getD_of_isDir hlpdir)]
      exact hlpman
  have hsame : (is_same_skill
      (fsInsert (pathJoin (pathJoin o.tmpRoot "stage") name)
        ((fsInsert (pathJoin o.tmpRoot "stage") (FsTree.dir [])
            (fsInsert o.tmpRoot (FsTree.dir []) s) lp).getD (FsTree.dir []))
        (fsInsert (pathJoin o.tmpRoot "stage") (FsTree.dir [])
          (fsInsert o.tmpRoot (FsTree.dir []) s)))
      (pathJoin dest_root name) (pathJoin (pathJoin o.tmpRoot "stage") name)).1 =
      true := by
    have hd2 : isDirAt
        (fsInsert (pathJoin (pathJoin o.tmpRoot "stage") name)
          ((fsInsert (pathJoin o.tmpRoot "stage") (FsTree.dir [])
              (fsInsert o.tmpRoot (FsTree.dir []) s) lp).getD (FsTree.dir []))
          (fsInsert (pathJoin o.tmpRoot "stage") (FsTree.dir [])
            (fsInsert o.tmpRoot (FsTree.dir []) s)))
        (pathJoin dest_root name) = true := by
      rw [isDirAt_congr hs2DP]; exact hdest
    have heq : hashAt
        (fsInsert (pathJoin (pathJoin o.tmpRoot "stage") name)
          ((fsInsert (pathJoin o.tmpRoot "stage") (FsTree.dir [])
              (fsInsert o.tmpRoot (FsTree.dir []) s) lp).getD (FsTree.dir []))
          (fsInsert (pathJoin o.tmpRoot "stage") (FsTree.dir [])
            (fsInsert o.tmpRoot (FsTree.dir []) s)))
        (pathJoin dest_root name) = hashAt
        (fsInsert (pathJoin (pathJoin o.tmpRoot "stage") name)
          ((fsInsert (pathJoin o.tmpRoot "stage") (FsTree.dir [])
              (fsInsert o.tmpRoot (FsTree.dir []) s) lp).getD (FsTree.dir []))
          (fsInsert (pathJoin o.tmpRoot "stage") (FsTree.dir [])
            (fsInsert o.tmpRoot (FsTree.dir []) s)))
        (pathJoin (pathJoin o.tmpRoot "stage") name) := by
      rw [hashAt_congr hs2DP, hashAt_of_eq hs2SP, hhash,
        hashAt_of_eq (getD_of_isDir hlpdir)]
    simp [is_same_skill, hd2, heq]
  have hrun : update_one s name entry dest_root keep_backup o =
      (fsRemoveTree o.tmpRoot
        (fsInsert (pathJoin (pathJoin o.tmpRoot "stage") name)
          ((fsInsert (pathJoin o.tmpRoot "stage") (FsTree.dir [])
              (fsInsert o.tmpRoot (FsTree.dir []) s) lp).getD (FsTree.dir []))
          (fsInsert (pathJoin o.tmpRoot "stage") (FsTree.dir [])
            (fsInsert o.tmpRoot (FsTree.dir []) s))),
        Except.ok false, false) := by
    simp only [update_one, hlp, hv1]
    rw [update_one_afterStage_unchanged _ _ _ _ _ _ hv2 hsame]
  refine ⟨by rw [hrun], by rw [hrun], ?_⟩
  intro q
  rw [hrun]
  by_cases hq : pathUnder o.tmpRoot q = true
  · simp only [fsRemoveTree, hq, if_true]
    exact (hfresh q hq).symm
  · have hq2 : pathUnder o.tmpRoot q = false := by simpa using hq
    simp only [fsRemoveTree, hq2, if_false, Bool.false_eq_true]
    rw [fsInsert_ne _ _ _ (ne_of_pathUnder hq2 hU_SP),
      fsInsert_ne _ _ _ (ne_of_pathUnder hq2 hU_SR),
      fsInsert_ne _ _ _ (ne_of_pathUnder hq2 (pathUnder_self _))]

/-- Witness for C3: installed `dest/foo` and local source `src` hold the
same tree; the update reports "unchanged", invokes no replacement, and
leaves the installed tree in place. -/
theorem update_one_unchanged_witness :
    (update_one
        (fun p => if p = "dest/foo"
          then some (FsTree.dir [("SKILL.md", FsTree.file [104, 105])])
          else if p = "src"
            then some (FsTree.dir [("SKILL.md", FsTree.file [104, 105])])
            else none)
        "foo" ⟨some "src", none, none, none, none, none, false⟩ "dest" false
        ⟨"/tmp/skill-update-x", "20240101000000", true, true, .dir [], false⟩).2.1 =
      .ok false ∧
    (update_one
        (fun p => if p = "dest/foo"
          then some (FsTree.dir [("SKILL.md", FsTree.file [104, 105])])
          else if p = "src"
            then some (FsTree.dir [("SKILL.md", FsTree.file [104, 105])])
            else none)
        "foo" ⟨some "src", none, none, none, none, none, false⟩ "dest" false
        ⟨"/tmp/skill-update-x", "20240101000000", true, true, .dir [], false⟩).2.2 =
      false ∧
    (update_one
        (fun p => if p = "dest/foo"
          then some (FsTree.dir [("SKILL.md", FsTree.file [104, 105])])
          else if p = "src"
            then some (FsTree.dir [("SKILL.md", FsTree.file [104, 105])])
            else none)
        "foo" ⟨some "src", none, none, none, none, none, false⟩ "dest" false
        ⟨"/tmp/skill-update-x", "20240101000000", true, true, .dir [], false⟩).1
        "dest/foo" =
      some (FsTree.dir [("SKILL.md", FsTree.file [104, 105])]) := by
  have h := update_one_unchanged
    (fun p => if p = "dest/foo"
      then some (FsTree.dir [("SKILL.md", FsTree.file [104, 105])])
      else if p = "src"
        then some (FsTree.dir [("SKILL.md", FsTree.file [104, 105])])
        else none)
    "foo" "src" "dest" ⟨some "src", none, none, none, none, none, false⟩ false
    ⟨"/tmp/skill-update-x", "20240101000000", true, true, .dir [], false⟩
    (by
      intro q hq
      by_cases h1 : q = "dest/foo"
      · subst h1; exact absurd hq (by decide)
      · by_cases h2 : q = "src"
        · subst h2; exact absurd hq (by decide)
        · simp [h1, h2])
    rfl rfl rfl rfl
  exact ⟨h.1, h.2.1, (h.2.2 "dest/foo").trans rfl⟩

/-- Claim C7: a remote-by-repo-path record whose `path` field is a list
with more than one element fails with the descriptive `ValueError` raised
before any I/O for the descriptor: `_install_from_github` returns it with
the filesystem untouched and the fetch subprocess never invoked, and
`_update_one` (with the installer script resolvable) propagates the same
error. -/
theorem multi_path_list_rejected (entry : Entry) (l : List String)
    (name stage_root dest_root : String) (s : FS) (subOk keep_backup : Bool)
    (produced : FsTree) (o : UpdOracle)
    (hurl : entry.url = none) (hpath : entry.path = some (.list l))
    (hlen : 1 < l.length) (hlocal : entry.local_path = none)
    (hio : o.installerOk = true) :
    install_from_github entry name stage_root s subOk produced =
      (s, some .multiPath, false) ∧
    (update_one s name entry dest_root keep_backup o).2.1 = .error .multiPath := by
  have hne : l.length ≠ 1 := by omega
  have hinst : ∀ (s1 : FS) (sr : String) (so : Bool) (pr : FsTree),
      install_from_github entry name sr s1 so pr = (s1, some .multiPath, false) := by
    intro s1 sr so pr
    simp [install_from_github, hurl, hpath, hne]
  refine ⟨hinst s stage_root subOk produced, ?_⟩
  simp only [update_one, hlocal, hio]
  rw [hinst]
  simp

/-- Witness for C7 at a two-element path list. -/
theorem multi_path_list_rejected_witness :
    install_from_github
        ⟨none, none, some "owner/repo", some (.list ["a", "b"]), none, none, false⟩
        "foo" "/tmp/stage" (fun _ => none) true (.dir []) =
      ((fun _ => none : FS), some .multiPath, false) ∧
    (update_one (fun _ => none) "foo"
        ⟨none, none, some "owner/repo", some (.list ["a", "b"]), none, none, false⟩
        "dest" false
        ⟨"/tmp/skill-update-x", "20240101000000", true, true, .dir [], false⟩).2.1 =
      .error .multiPath := by
  have h := multi_path_list_rejected
    ⟨none, none, some "owner/repo", some (.list ["a", "b"]), none, none, false⟩
    ["a", "b"] "foo" "/tmp/stage" "dest" (fun _ => none) true false (.dir [])
    ⟨"/tmp/skill-update-x", "20240101000000", true, true, .dir [], false⟩
    rfl rfl (by decide) rfl rfl
  exact h

/-! ### The update orchestrator (`_cmd_update`) and registry commands -/

/-- The in-memory `skills` mapping loaded from the registry file: an
association list from skill name (unique key) to source record, in the
JSON object's key order. -/
abbrev Registry := List (String × Entry)

/-- Did this `_update_one` outcome raise an exception? -/
def isErr : Except Err Bool → Bool
  | .error _ => true
  | .ok _ => false

/-- The per-name loop of `_cmd_update`: look each target up
(`skills.get(name)`), skip absent or falsy records (`if not entry:
continue`), otherwise run `_update_one` and catch any exception, setting
the `errors` flag.  `orc i` supplies the oracle inputs of iteration `i`.
Besides the filesystem and the code's `errors` flag, two ghost lists
record which names were attempted (reached `_update_one`) and which of
those raised. -/
def processTargets (skills : Registry) (dest_root : String) (keep_backup : Bool)
    (orc : Nat → UpdOracle) :
    List String → Nat → FS → FS × Bool × List String × List String
  | [], _, s => (s, false, [], [])
  | n :: rest, i, s =>
    match List.lookup n skills with
    | none => processTargets skills dest_root keep_backup orc rest (i+1) s
    | some e =>
      if entryTruthy e = false then
        processTargets skills dest_root keep_backup orc rest (i+1) s
      else
        let r := update_one s n e dest_root keep_backup (orc i)
        let b := processTargets skills dest_root keep_backup orc rest (i+1) r.1
        (b.1, isErr r.2.1 || b.2.1, n :: b.2.2.1,
          (if isErr r.2.1 then [n] else []) ++ b.2.2.2)

/-- Python's string order on names (code points), for
`sorted(skills.keys())`. -/
def strOrder (a b : String) : Prop := strLeB a.data b.data = true

instance : DecidableRel strOrder :=
  fun a b => inferInstanceAs (Decidable (strLeB a.data b.data = true))

/-- `sorted(skills.keys())`. -/
def sortedKeys (skills : Registry) : List String :=
  List.insertionSort strOrder (skills.map Prod.fst)

/-- Outcome of one `_cmd_update` invocation: final filesystem, process
exit status, the code's `errors` flag, and the ghost attempted / errored /
reported-missing name lists. -/
structure CmdUpdateResult where
  fs : FS
  exit : Nat
  errorsFlag : Bool
  attempted : List String
  errored : List String
  missing : List String

/-- `_cmd_update(args, dest_root)`: exit 1 when the registry file is
absent; otherwise targets are all sorted registry names (`--all`) or the
`--name` list; exit 1 when no targets; names absent from the registry are
reported as skipped (`missing`); each remaining target runs through
`_update_one` with per-skill exception isolation; exit 1 iff the `errors`
flag was set. -/
def cmd_update (sourcesExists : Bool) (skills : Registry) (all : Bool)
    (names : Option (List String)) (dest_root : String) (keep_backup : Bool)
    (orc : Nat → UpdOracle) (s : FS) : CmdUpdateResult :=
  if sourcesExists = false then ⟨s, 1, false, [], [], []⟩
  else
    let targets := if all then sortedKeys skills else names.getD []
    if targets.isEmpty then ⟨s, 1, false, [], [], []⟩
    else
      let missing := targets.filter (fun n => (List.lookup n skills).isNone)
      let b := processTargets skills dest_root keep_backup orc targets 0 s
      ⟨b.1, if b.2.1 then 1 else 0, b.2.1, b.2.2.1, b.2.2.2, missing⟩

/-- The predicate deciding whether a target name actually runs: present in
the registry with a dict-truthy (non-empty) record. -/
def runsPred (skills : Registry) (n : String) : Bool :=
  match List.lookup n skills with
  | some e => entryTruthy e
  | none => false

/-- Behaviour of the per-name loop: the `errors` flag is set exactly when
some attempted name raised; every errored name was attempted; and the
attempted names are exactly the targets present in the registry with a
non-empty record — independent of the filesystem, of the oracle inputs,
and hence of whether earlier names failed. -/
theorem processTargets_spec (skills : Registry) (dest_root : String)
    (keep_backup : Bool) (orc : Nat → UpdOracle) :
    ∀ (targets : List String) (i : Nat) (s : FS),
      ((processTargets skills dest_root keep_backup orc targets i s).2.1 = true ↔
        (processTargets skills dest_root keep_backup orc targets i s).2.2.2 ≠ []) ∧
      (∀ n, n ∈ (processTargets skills dest_root keep_backup orc targets i s).2.2.2 →
        n ∈ (processTargets skills dest_root keep_backup orc targets i s).2.2.1) ∧
      ((processTargets skills dest_root keep_backup orc targets i s).2.2.1 =
        targets.filter (runsPred skills)) := by
  intro targets
  induction targets with
  | nil =>
    intro i s
    exact ⟨by simp [processTargets], by simp [processTargets], by simp [processTargets]⟩
  | cons n rest ih =>
    intro i s
    cases hl : List.lookup n skills with
    | none =>
      have hpred : runsPred skills n = false := by simp [runsPred, hl]
      obtain ⟨ih1, ih2, ih3⟩ := ih (i+1) s
      simp only [processTargets, hl]
      refine ⟨ih1, ih2, ?_⟩
      rw [List.filter_cons_of_neg (by simp [hpred]), ih3]
    | some e =>
      by_cases ht : entryTruthy e = false
      · have hpred : runsPred skills n = false := by simp [runsPred, hl, ht]
        obtain ⟨ih1, ih2, ih3⟩ := ih (i+1) s
        simp only [processTargets, hl]
        rw [if_pos ht]
        refine ⟨ih1, ih2, ?_⟩
        rw [List.filter_cons_of_neg (by simp [hpred]), ih3]
      · have hpred : runsPred skills n = true := by
          simp only [runsPred, hl]
          simpa using ht
        obtain ⟨ih1, ih2, ih3⟩ :=
          ih (i+1) (update_one s n e dest_root keep_backup (orc i)).1
        simp only [processTargets, hl]
        rw [if_neg ht]
        refine ⟨?_, ?_, ?_⟩
        · cases he : isErr (update_one s n e dest_root keep_backup (orc i)).2.1 <;>
            simp [he, ih1]
        · intro m hm
          cases he : isErr (update_one s n e dest_root keep_backup (orc i)).2.1 <;>
            rw [he] at hm
          · simp only [if_false] at hm
            simp at hm
            exact List.mem_cons_of_mem n (ih2 m (by simpa using hm))
          · simp only [if_true] at hm
            rcases List.mem_append.1 hm with h1 | h2
            · simp at h1
              subst h1
              exact List.mem_cons_self _ _
            · exact List.mem_cons_of_mem n (ih2 m h2)
        · rw [List.filter_cons_of_pos (by simp [hpred]), ih3]

/-- Claim C4: the update command's exit status is 1 if the registry file
is absent; 1 if no targets are specified (neither `--all` names nor
`--name`); otherwise 1 exactly when at least one targeted skill's update
raised an error — names absent from the registry never count (every
errored name was attempted, and missing names are never attempted) — and 0
on full success. -/
theorem cmd_update_exit_status (sourcesExists : Bool) (skills : Registry) (all : Bool)
    (names : Option (List String)) (dest_root : String) (keep_backup : Bool)
    (orc : Nat → UpdOracle) (s : FS) :
    (sourcesExists = false →
      (cmd_update sourcesExists skills all names dest_root keep_backup orc s).exit = 1) ∧
    (sourcesExists = true → (if all then sortedKeys skills else names.getD []) = [] →
      (cmd_update sourcesExists skills all names dest_root keep_backup orc s).exit = 1) ∧
    (sourcesExists = true → (if all then sortedKeys skills else names.getD []) ≠ [] →
      ((cmd_update sourcesExists skills all names dest_root keep_backup orc s).exit = 1 ↔
        (cmd_update sourcesExists skills all names dest_root keep_backup orc s).errored ≠
          [])) ∧
    (∀ n, n ∈ (cmd_update sourcesExists skills all names dest_root keep_backup orc s).errored →
      n ∈ (cmd_update sourcesExists skills all names dest_root keep_backup orc s).attempted) ∧
    (∀ n, n ∈ (cmd_update sourcesExists skills all names dest_root keep_backup orc s).missing →
      n ∉ (cmd_update sourcesExists skills all names dest_root keep_backup orc s).attempted) := by
  by_cases hse : sourcesExists = false
  · have hc : cmd_update sourcesExists skills all names dest_root keep_backup orc s =
        ⟨s, 1, false, [], [], []⟩ := by
      simp [cmd_update, hse]
    rw [hc]
    refine ⟨fun _ => rfl, fun _ _ => rfl, ?_, ?_, ?_⟩
    · intro h
      rw [h] at hse; cases hse
    · intro n hn; cases hn
    · intro n hn; cases hn
  · have hseT : sourcesExists = true := by simpa using hse
    by_cases htg : (if all then sortedKeys skills else names.getD []) = []
    · have he : (if all then sortedKeys skills else names.getD []).isEmpty = true := by
        rw [htg]; rfl
      have hc : cmd_update sourcesExists skills all names dest_root keep_backup orc s =
          ⟨s, 1, false, [], [], []⟩ := by
        simp [cmd_update, hseT, he]
      rw [hc]
      refine ⟨fun _ => rfl, fun _ _ => rfl, ?_, ?_, ?_⟩
      · intro _ h; exact absurd htg h
      · intro n hn; cases hn
      · intro n hn; cases hn
    · have he : (if all then sortedKeys skills else names.getD []).isEmpty = false := by
        cases hl : (if all then sortedKeys skills else names.getD []).isEmpty with
        | false => rfl
        | true => exact absurd (List.isEmpty_iff.1 hl) htg
      have hc : cmd_update sourcesExists skills all names dest_root keep_backup orc s =
          ⟨(processTargets skills dest_root keep_backup orc
              (if all then sortedKeys skills else names.getD []) 0 s).1,
            if (processTargets skills dest_root keep_backup orc
                (if all then sortedKeys skills else names.getD []) 0 s).2.1 then 1 else 0,
            (processTargets skills dest_root keep_backup orc
              (if all then sortedKeys skills else names.getD []) 0 s).2.1,
            (processTargets skills dest_root keep_backup orc
              (if all then sortedKeys skills else names.getD []) 0 s).2.2.1,
            (processTargets skills dest_root keep_backup orc
              (if all then sortedKeys skills else names.getD []) 0 s).2.2.2,
            (if all then sortedKeys skills else names.getD []).filter
              (fun n => (List.lookup n skills).isNone)⟩ := by
        simp [cmd_update, hseT, he]
      obtain ⟨hs1, hs2, hs3⟩ := processTargets_spec skills dest_root keep_backup orc
        (if all then sortedKeys skills else names.getD []) 0 s
      rw [hc]
      refine ⟨?_, ?_, ?_, ?_, ?_⟩
      · intro h
        rw [h] at hseT; cases hseT
      · intro _ h; exact absurd h htg
      · intro _ _
        show (if (processTargets skills dest_root keep_backup orc
            (if all then sortedKeys skills else names.getD []) 0 s).2.1 = true
            then 1 else 0) = 1 ↔ _
        cases hflag : (processTargets skills dest_root keep_backup orc
            (if all then sortedKeys skills else names.getD []) 0 s).2.1 with
        | true =>
          exact iff_of_true rfl (hs1.1 hflag)
        | false =>
          have herr : (processTargets skills dest_root keep_backup orc
              (if all then sortedKeys skills else names.getD []) 0 s).2.2.2 = [] := by
            by_contra hh
            have := hs1.2 hh
            rw [hflag] at this; cases this
          exact iff_of_false (by simp) (by simp [herr])
      · intro n hn
        exact hs2 n hn
      · intro n hn hatt
        have h1 := List.of_mem_filter hn
        have hatt2 : n ∈ (if all then sortedKeys skills
            else names.getD []).filter (runsPred skills) := by
          rw [← hs3]; exact hatt
        have h2 := List.of_mem_filter hatt2
        rw [runsPred, Option.isNone_iff_eq_none.1 h1] at h2
        cases h2

/-- Witness for C4: an absent registry file exits 1; with one registered
skill whose local source directory does not exist, the targeted update
errors and the exit status is 1 exactly because the errored list is
non-empty. -/
theorem cmd_update_exit_status_witness :
    (cmd_update false [] false (some ["a"]) "dest" false
        (fun _ => ⟨"/tmp/x", "t", true, true, .dir [], false⟩) (fun _ => none)).exit =
      1 ∧
    ((cmd_update true [("a", ⟨some "missing", none, none, none, none, none, false⟩)]
        false (some ["a"]) "dest" false
        (fun _ => ⟨"/tmp/x", "t", true, true, .dir [], false⟩) (fun _ => none)).exit =
        1 ↔
      (cmd_update true [("a", ⟨some "missing", none, none, none, none, none, false⟩)]
          false (some ["a"]) "dest" false
          (fun _ => ⟨"/tmp/x", "t", true, true, .dir [], false⟩)
          (fun _ => none)).errored ≠ []) :=
  ⟨(cmd_update_exit_status false [] false (some ["a"]) "dest" false
      (fun _ => ⟨"/tmp/x", "t", true, true, .dir [], false⟩) (fun _ => none)).1 rfl,
    (cmd_update_exit_status true
        [("a", ⟨some "missing", none, none, none, none, none, false⟩)]
        false (some ["a"]) "dest" false
        (fun _ => ⟨"/tmp/x", "t", true, true, .dir [], false⟩)
        (fun _ => none)).2.2.1 rfl (by decide)⟩

/-- Claim C5 (amended): in a batch update, per-skill failures are
isolated: the list of attempted names is exactly the targets present in
the registry with a non-empty source record — the same list for every
oracle and filesystem, hence regardless of whether earlier names failed —
and names absent from the registry are reported as skipped and never
attempted.  (Names present with an empty record are skipped silently;
see the counterexample to the claim as frozen.) -/
theorem batch_failure_isolation (skills : Registry) (all : Bool)
    (names : Option (List String)) (dest_root : String) (keep_backup : Bool)
    (orc : Nat → UpdOracle) (s : FS) :
    (cmd_update true skills all names dest_root keep_backup orc s).attempted =
      (if all then sortedKeys skills else names.getD []).filter (runsPred skills) ∧
    (cmd_update true skills all names dest_root keep_backup orc s).missing =
      (if all then sortedKeys skills else names.getD []).filter
        (fun n => (List.lookup n skills).isNone) ∧
    ∀ n, n ∈ (cmd_update true skills all names dest_root keep_backup orc s).missing →
      n ∉ (cmd_update true skills all names dest_root keep_backup orc s).attempted := by
  by_cases htg : (if all then sortedKeys skills else names.getD []) = []
  · have he : (if all then sortedKeys skills else names.getD []).isEmpty = true := by
      rw [htg]; rfl
    have hc : cmd_update true skills all names dest_root keep_backup orc s =
        ⟨s, 1, false, [], [], []⟩ := by
      simp [cmd_update, he]
    rw [hc, htg]
    exact ⟨rfl, rfl, fun n hn => by cases hn⟩
  · have he : (if all then sortedKeys skills else names.getD []).isEmpty = false := by
      cases hl : (if all then sortedKeys skills else names.getD []).isEmpty with
      | false => rfl
      | true => exact absurd (List.isEmpty_iff.1 hl) htg
    have hc : cmd_update true skills all names dest_root keep_backup orc s =
        ⟨(processTargets skills dest_root keep_backup orc
            (if all then sortedKeys skills else names.getD []) 0 s).1,
          if (processTargets skills dest_root keep_backup orc
              (if all then sortedKeys skills else names.getD []) 0 s).2.1 then 1 else 0,
          (processTargets skills dest_root keep_backup orc
            (if all then sortedKeys skills else names.getD []) 0 s).2.1,
          (processTargets skills dest_root keep_backup orc
            (if all then sortedKeys skills else names.getD []) 0 s).2.2.1,
          (processTargets skills dest_root keep_backup orc
            (if all then sortedKeys skills else names.getD []) 0 s).2.2.2,
          (if all then sortedKeys skills else names.getD []).filter
            (fun n => (List.lookup n skills).isNone)⟩ := by
      simp [cmd_update, he]
    obtain ⟨hs1, hs2, hs3⟩ := processTargets_spec skills dest_root keep_backup orc
      (if all then sortedKeys skills else names.getD []) 0 s
    rw [hc]
    refine ⟨hs3, rfl, ?_⟩
    intro n hn hatt
    have h1 := List.of_mem_filter hn
    have hatt2 : n ∈ (if all then sortedKeys skills
        else names.getD []).filter (runsPred skills) := by
      rw [← hs3]; exact hatt
    have h2 := List.of_mem_filter hatt2
    rw [runsPred, Option.isNone_iff_eq_none.1 h1] at h2
    cases h2

/-- Counterexample to C5 as frozen: with registry `{"a": {}}` the name
`"a"` is present in the registry, yet a batch update targeting `["a"]`
never attempts it (`if not entry: continue` skips falsy records) and does
not report it as missing either; the run exits 0. -/
theorem batch_failure_isolation_counterexample :
    List.lookup "a" [("a", Entry.empty)] = some Entry.empty ∧
    (cmd_update true [("a", Entry.empty)] false (some ["a"]) "dest" false
        (fun _ => ⟨"/tmp/x", "t", true, true, .dir [], false⟩)
        (fun _ => none)).attempted = [] ∧
    (cmd_update true [("a", Entry.empty)] false (some ["a"]) "dest" false
        (fun _ => ⟨"/tmp/x", "t", true, true, .dir [], false⟩)
        (fun _ => none)).missing = [] ∧
    (cmd_update true [("a", Entry.empty)] false (some ["a"]) "dest" false
        (fun _ => ⟨"/tmp/x", "t", true, true, .dir [], false⟩)
        (fun _ => none)).exit = 0 :=
  ⟨rfl, rfl, rfl, rfl⟩

/-- Witness for the amended C5: of the batch `["a", "zzz"]`, the
registered name `"a"` is attempted, the unregistered `"zzz"` is reported
as skipped and not attempted. -/
theorem batch_failure_isolation_witness :
    (cmd_update true [("a", ⟨some "src", none, none, none, none, none, false⟩)] false
        (some ["a", "zzz"]) "dest" false
        (fun _ => ⟨"/tmp/x", "t", true, true, .dir [], false⟩)
        (fun _ => none)).attempted = ["a"] ∧
    (cmd_update true [("a", ⟨some "src", none, none, none, none, none, false⟩)] false
        (some ["a", "zzz"]) "dest" false
        (fun _ => ⟨"/tmp/x", "t", true, true, .dir [], false⟩)
        (fun _ => none)).missing = ["zzz"] ∧
    "zzz" ∉ (cmd_update true [("a", ⟨some "src", none, none, none, none, none, false⟩)]
        false (some ["a", "zzz"]) "dest" false
        (fun _ => ⟨"/tmp/x", "t", true, true, .dir [], false⟩)
        (fun _ => none)).attempted := by
  have h := batch_failure_isolation
    [("a", ⟨some "src", none, none, none, none, none, false⟩)] false
    (some ["a", "zzz"]) "dest" false
    (fun _ => ⟨"/tmp/x", "t", true, true, .dir [], false⟩) (fun _ => none)
  exact ⟨h.1.trans rfl, h.2.1.trans rfl, h.2.2 "zzz" (by rw [h.2.1]; decide)⟩

/-! ### The remove command (`_cmd_remove`) -/

/-- The removal loop of `_cmd_remove`: for each given name present in the
`skills` mapping, pop it and append it to `removed`. -/
def removeLoop : List String → Registry → List String → Registry × List String
  | [], sk, removed => (sk, removed)
  | n :: rest, sk, removed =>
    if (List.lookup n sk).isSome then
      removeLoop rest (sk.eraseP (fun p => p.1 == n)) (removed ++ [n])
    else removeLoop rest sk removed

/-- `_cmd_remove(args, dest_root)`: `fileContent` is the persisted byte
content of the registry file and `serialize` the external JSON writer
(`_save_sources`), called only when at least one record was removed;
otherwise the command prints "no records removed" and the file keeps its
exact previous content.  Returns the file content after the call, the
removed names, and whether the file was rewritten. -/
def cmd_remove (fileContent : String) (loaded : Registry) (names : List String)
    (serialize : Registry → String) : String × List String × Bool :=
  let r := removeLoop names loaded []
  if r.2.isEmpty then (fileContent, r.2, false)
  else (serialize r.1, r.2, true)

/-- Claim C8: when none of the given names is present in the registry's
skills mapping, `_cmd_remove` removes no records (reporting "no records
removed"), never calls `_save_sources`, and the registry file's persisted
content is byte-for-byte unchanged. -/
theorem cmd_remove_noop (fileContent : String) (loaded : Registry)
    (names : List String) (serialize : Registry → String)
    (h : ∀ n ∈ names, List.lookup n loaded = none) :
    cmd_remove fileContent loaded names serialize = (fileContent, [], false) := by
  have hloop : ∀ (ns : List String) (acc : List String),
      (∀ n ∈ ns, List.lookup n loaded = none) → removeLoop ns loaded acc = (loaded, acc) := by
    intro ns
    induction ns with
    | nil => intro acc _; rfl
    | cons n rest ih =>
      intro acc h2
      have hn := h2 n (List.mem_cons_self n rest)
      simp only [removeLoop, hn, Option.isSome_none, Bool.false_eq_true, if_false]
      exact ih acc (fun m hm => h2 m (List.mem_cons_of_mem n hm))
  simp [cmd_remove, hloop names [] h]

/-- Witness for C8: removing an absent name leaves the file content
untouched. -/
theorem cmd_remove_noop_witness :
    cmd_remove "old-content" [("a", Entry.empty)] ["zzz"] (fun _ => "rewritten") =
      ("old-content", [], false) :=
  cmd_remove_noop "old-content" [("a", Entry.empty)] ["zzz"] (fun _ => "rewritten")
    (by decide)
